import Mathlib

/-!
Verification of the `regex_search.py` command-line scanner.

The development shallowly embeds the program: lines are `List Char`,
the regex engine (the program calls Python's `re` for the core dialect of
literals, `.`, classes, `(..)`, `|`, `*`, `+`, `?`, `\d`, `\w`, `\s`) is an
executable matcher, and each formatter is a pure function from
`(file_name, line, line_no, matches)` to the text it writes.  All recursive
definitions are structural (fuel-indexed where the source loop is not
structural) so that every definition evaluates by `decide`/`rfl`.
-/

set_option linter.unusedVariables false

namespace RegexScanner

/-- Model of the compiled pattern produced by `re.compile` for the core
regular-expression dialect the program relies on. -/
inductive Regex where
  | epsilon
  | char (c : Char)
  | anyChar
  | cls (cs : List Char) (neg : Bool)
  | concat (r1 r2 : Regex)
  | alt (r1 r2 : Regex)
  | star (r : Regex)
deriving Repr, DecidableEq

/-- Python slice `l[a:b]` on a list of characters (clamping, as in Python). -/
def slice (l : List Char) (a b : Nat) : List Char := (l.drop a).take (b - a)

/-- Structural size of a regex, used to pick an ample fuel for the matcher. -/
def regexSize : Regex → Nat
  | .epsilon => 1
  | .char _ => 1
  | .anyChar => 1
  | .cls _ _ => 1
  | .concat a b => regexSize a + regexSize b + 1
  | .alt a b => regexSize a + regexSize b + 1
  | .star a => regexSize a + 1

/-- Fuel-indexed matcher: the lengths of the prefixes of `s` matched by `r`,
listed in the backtracking order of the engine (greedy repetition first,
left alternative first).  Every recursive call spends one unit of fuel. -/
def matchLensF : Nat → Regex → List Char → List Nat
  | 0, _, _ => []
  | fuel + 1, r, s =>
    match r with
    | .epsilon => [0]
    | .char c =>
      match s with
      | [] => []
      | a :: _ => if a = c then [1] else []
    | .anyChar =>
      match s with
      | [] => []
      | _ :: _ => [1]
    | .cls cs neg =>
      match s with
      | [] => []
      | a :: _ => if (cs.contains a) ≠ neg then [1] else []
    | .concat r1 r2 =>
      (matchLensF fuel r1 s).flatMap
        (fun l1 => (matchLensF fuel r2 (s.drop l1)).map (fun l2 => l1 + l2))
    | .alt r1 r2 => matchLensF fuel r1 s ++ matchLensF fuel r2 s
    | .star r1 =>
      ((matchLensF fuel r1 s).filter (fun l1 => 0 < l1)).flatMap
        (fun l1 => (matchLensF fuel (.star r1) (s.drop l1)).map (fun l2 => l1 + l2)) ++ [0]

/-- Candidate match lengths of `r` at the head of `s`, with ample fuel. -/
def matchLens (r : Regex) (s : List Char) : List Nat :=
  matchLensF ((regexSize r + 1) * (s.length + 1) + 1) r s

/-- Leftmost search: try start positions `p, p+1, ...` and return the first
position where the pattern matches, together with the end offset of the
engine's preferred match there.  Fuel-indexed scan over the positions. -/
def firstMatchF (r : Regex) (s : List Char) : Nat → Nat → Option (Nat × Nat)
  | 0, _ => none
  | k + 1, p =>
    if p ≤ s.length then
      match (matchLens r (s.drop p)).head? with
      | some l => some (p, p + l)
      | none => firstMatchF r s k (p + 1)
    else none

/-- First match of `r` in `s` at or after position `p` (start, end offsets). -/
def firstMatchFrom (r : Regex) (s : List Char) (p : Nat) : Option (Nat × Nat) :=
  firstMatchF r s (s.length + 1 - p) p

/-- One match record, as consumed by the formatters: `match.start()`,
`match.end()` and `match.group()`. -/
structure MatchRec where
  start : Nat
  stop : Nat
  text : List Char
deriving Repr, DecidableEq

/-- The scan cursor after emitting a match: the match's end offset, bumped
by one position when the match is zero-length, exactly as `finditer` does. -/
def nextCursor (m : MatchRec) : Nat :=
  if m.start < m.stop then m.stop else m.stop + 1

/-- Fuel-indexed scan loop of `pattern.finditer(line)`: find the first match
at or after the cursor, emit it, advance the cursor, repeat. -/
def finditerF (r : Regex) (s : List Char) : Nat → Nat → List MatchRec
  | 0, _ => []
  | k + 1, p =>
    match firstMatchFrom r s p with
    | none => []
    | some (st, en) =>
      ⟨st, en, slice s st en⟩ :: finditerF r s k (if st < en then en else en + 1)

/-- The full match sequence of `pattern.finditer(line)`: `line.length + 1`
scan steps always suffice because the cursor strictly increases. -/
def finditer (r : Regex) (s : List Char) : List MatchRec :=
  finditerF r s (s.length + 1) 0

/-- Concatenation of pre-span gap + matched span for each record, starting
from offset `p`, plus the final trailing gap. -/
def chunks (s : List Char) : Nat → List MatchRec → List Char
  | p, [] => s.drop p
  | p, m :: rest => slice s p m.start ++ slice s m.start m.stop ++ chunks s m.stop rest

/-- Decimal rendering of a line number or offset, as Python `str(n)`. -/
def natToChars (n : Nat) : List Char := (Nat.repr n).toList

/-- `DefaultFormatter.format`: one printed line per match. -/
def defaultFormat (file_name line : List Char) (line_no : Nat) (ms : List MatchRec) : List Char :=
  ms.foldl
    (fun acc m =>
      acc ++ "file name: ".toList ++ file_name ++ ", line: ".toList ++ natToChars line_no ++
        ", matched_text: ".toList ++ m.text ++ ['\n'])
    []

/-- The caret line built by `UnderscoreFormatter.format`'s loop:
spaces from the previous end to the match start, then one caret per
matched character; `last_index` starts at 0. -/
def underscoreCarets (ms : List MatchRec) : List Char :=
  (ms.foldl
    (fun (acc : List Char × Nat) m =>
      (acc.1 ++ List.replicate (m.start - acc.2) ' ' ++ List.replicate (m.stop - m.start) '^',
        m.stop))
    ([], 0)).1

/-- `UnderscoreFormatter.format`: prints the raw line, then the caret line. -/
def underscoreFormat (file_name line : List Char) (line_no : Nat) (ms : List MatchRec) : List Char :=
  line ++ '\n' :: (underscoreCarets ms ++ ['\n'])

/-- The terminal color-escape introducer `"\033[91m"`. -/
def escSeq : List Char := ['\x1b', '[', '9', '1', 'm']

/-- The terminal color-reset sequence `"\033[00m"`. -/
def resetSeq : List Char := ['\x1b', '[', '0', '0', 'm']

/-- The accumulator loop of `ColorFormatter.format`: output text so far and
`last_index`. -/
def colorBody (line : List Char) (ms : List MatchRec) : List Char × Nat :=
  ms.foldl
    (fun (acc : List Char × Nat) m =>
      (acc.1 ++ slice line acc.2 m.start ++ escSeq ++ slice line m.start m.stop ++ resetSeq,
        m.stop))
    ([], 0)

/-- `ColorFormatter.format`: prints the accumulated text without a newline,
then the trailing suffix `line[last_index:]` with a newline. -/
def colorFormat (file_name line : List Char) (line_no : Nat) (ms : List MatchRec) : List Char :=
  (colorBody line ms).1 ++ line.drop (colorBody line ms).2 ++ ['\n']

/-- Hexadecimal digit, lowercase, as used by JSON `\uXXXX` escapes. -/
def hexDigit (n : Nat) : Char :=
  if n < 10 then Char.ofNat (48 + n) else Char.ofNat (87 + n)

/-- A JSON `\uXXXX` escape for a code unit. -/
def u4 (n : Nat) : List Char :=
  ['\\', 'u', hexDigit (n / 4096 % 16), hexDigit (n / 256 % 16), hexDigit (n / 16 % 16),
    hexDigit (n % 16)]

/-- JSON string escaping of one character, as `json.dump` with the default
`ensure_ascii=True` performs it. -/
def jsonEscapeChar (c : Char) : List Char :=
  if c = '"' then ['\\', '"']
  else if c = '\\' then ['\\', '\\']
  else if c = '\n' then ['\\', 'n']
  else if c = '\r' then ['\\', 'r']
  else if c = '\t' then ['\\', 't']
  else if c.toNat = 8 then ['\\', 'b']
  else if c.toNat = 12 then ['\\', 'f']
  else if c.toNat < 32 then u4 c.toNat
  else if c.toNat < 127 then [c]
  else if c.toNat < 65536 then u4 c.toNat
  else u4 (55296 + (c.toNat - 65536) / 1024) ++ u4 (56320 + (c.toNat - 65536) % 1024)

/-- A JSON string literal. -/
def jsonStringLit (s : List Char) : List Char :=
  '"' :: (s.flatMap jsonEscapeChar ++ ['"'])

/-- The text `json.dump(data, file, indent=4)` writes for a list of strings:
`[]` for the empty list, otherwise one four-space-indented string per line. -/
def jsonDumpIndent4 : List (List Char) → List Char
  | [] => ['[', ']']
  | x :: xs =>
    '[' :: '\n' ::
      (List.intercalate [',', '\n']
        ((x :: xs).map (fun s => ' ' :: ' ' :: ' ' :: ' ' :: jsonStringLit s)) ++ '\n' :: [']'])

/-- The `data` list built by `MachineFormatter.format`:
`f"{file_name}:{line_no}:{match.start()}:{match.group()}"` per match. -/
def machineRecords (file_name : List Char) (line_no : Nat) (ms : List MatchRec) : List (List Char) :=
  ms.foldl
    (fun acc m =>
      acc ++ [file_name ++ ':' :: natToChars line_no ++ ':' :: natToChars m.start ++ ':' :: m.text])
    []

/-- The bytes `MachineFormatter.format` appends to `json_output_file.json`
for one line: the JSON dump of the record list, written on every call. -/
def machineChunk (file_name line : List Char) (line_no : Nat) (ms : List MatchRec) : List Char :=
  jsonDumpIndent4 (machineRecords file_name line_no ms)

/-- The digits matched by `\d` (ASCII model of the dialect's digit class). -/
def digitChars : List Char := "0123456789".toList

/-- The characters matched by `\w` (ASCII model). -/
def wordChars : List Char :=
  "abcdefghijklmnopqrstuvwxyzABCDEFGHIJKLMNOPQRSTUVWXYZ0123456789_".toList

/-- The characters matched by `\s`. -/
def spaceChars : List Char := [' ', '\t', '\n', '\x0b', '\x0c', '\r']

/-- The characters `lo..hi`, for a `[a-z]` range inside a character class. -/
def rangeChars (lo hi : Nat) : List Char :=
  (List.range (hi + 1 - lo)).map (fun i => Char.ofNat (lo + i))

/-- Items of a character class, up to the closing `]`; a range with reversed
bounds is a syntax error, an unterminated class is a syntax error. -/
def parseCharSetItems : Nat → List Char → Except Unit (List Char × List Char)
  | 0, _ => .error ()
  | f + 1, s =>
    match s with
    | [] => .error ()
    | ']' :: rest => pure ([], rest)
    | a :: '-' :: b :: rest =>
      if b = ']' then do
        let (cs, s1) ← parseCharSetItems f (']' :: rest)
        pure (a :: '-' :: cs, s1)
      else
        if a.toNat ≤ b.toNat then do
          let (cs, s1) ← parseCharSetItems f rest
          pure (rangeChars a.toNat b.toNat ++ cs, s1)
        else .error ()
    | a :: rest => do
      let (cs, s1) ← parseCharSetItems f rest
      pure (a :: cs, s1)

/-- A `[...]` character class; a `]` right after the `[` (or after `[^`) is a
literal member, as in the dialect. -/
def parseCharSet (f : Nat) (s : List Char) : Except Unit (Regex × List Char) :=
  match s with
  | '^' :: s1 =>
    match s1 with
    | ']' :: rest => do
      let (cs, s2) ← parseCharSetItems f rest
      pure (.cls (']' :: cs) true, s2)
    | _ => do
      let (cs, s2) ← parseCharSetItems f s1
      pure (.cls cs true, s2)
  | ']' :: rest => do
    let (cs, s2) ← parseCharSetItems f rest
    pure (.cls (']' :: cs) false, s2)
  | _ => do
    let (cs, s2) ← parseCharSetItems f s
    pure (.cls cs false, s2)

mutual

/-- Alternation level of the pattern grammar: `concat ('|' alt)?`. -/
def parseAlt : Nat → List Char → Except Unit (Regex × List Char)
  | 0, _ => .error ()
  | f + 1, s => do
    let (r1, s1) ← parseConcat f s
    match s1 with
    | '|' :: rest => do
      let (r2, s2) ← parseAlt f rest
      pure (.alt r1 r2, s2)
    | _ => pure (r1, s1)

/-- Concatenation level: a sequence of repeated atoms, stopping at `)`, `|`
or the end of the pattern. -/
def parseConcat : Nat → List Char → Except Unit (Regex × List Char)
  | 0, _ => .error ()
  | f + 1, s =>
    match s with
    | [] => pure (.epsilon, [])
    | ')' :: _ => pure (.epsilon, s)
    | '|' :: _ => pure (.epsilon, s)
    | _ => do
      let (r1, s1) ← parseQuant f s
      let (r2, s2) ← parseConcat f s1
      pure (.concat r1 r2, s2)

/-- An atom followed by `*`, `+` or `?` quantifiers; `+` is one copy then a
star, `?` is a greedy alternative with the empty pattern. -/
def parseQuant : Nat → List Char → Except Unit (Regex × List Char)
  | 0, _ => .error ()
  | f + 1, s => do
    let (r, s1) ← parseAtom f s
    parseQuantTail f r s1

/-- The quantifier tail of an atom. -/
def parseQuantTail : Nat → Regex → List Char → Except Unit (Regex × List Char)
  | 0, _, _ => .error ()
  | f + 1, r, s =>
    match s with
    | '*' :: rest => parseQuantTail f (.star r) rest
    | '+' :: rest => parseQuantTail f (.concat r (.star r)) rest
    | '?' :: rest => parseQuantTail f (.alt r .epsilon) rest
    | _ => pure (r, s)

/-- One atom: a group, `.`, a class, an escape or a literal; a dangling
`(`, `)`, `|` or quantifier, or a trailing backslash, is a syntax error. -/
def parseAtom : Nat → List Char → Except Unit (Regex × List Char)
  | 0, _ => .error ()
  | f + 1, s =>
    match s with
    | [] => .error ()
    | '(' :: rest => do
      let (r, s1) ← parseAlt f rest
      match s1 with
      | ')' :: s2 => pure (r, s2)
      | _ => .error ()
    | ')' :: _ => .error ()
    | '|' :: _ => .error ()
    | '*' :: _ => .error ()
    | '+' :: _ => .error ()
    | '?' :: _ => .error ()
    | '.' :: rest => pure (.anyChar, rest)
    | '[' :: rest => parseCharSet f rest
    | '\\' :: c :: rest =>
      if c = 'd' then pure (.cls digitChars false, rest)
      else if c = 'D' then pure (.cls digitChars true, rest)
      else if c = 'w' then pure (.cls wordChars false, rest)
      else if c = 'W' then pure (.cls wordChars true, rest)
      else if c = 's' then pure (.cls spaceChars false, rest)
      else if c = 'S' then pure (.cls spaceChars true, rest)
      else pure (.char c, rest)
    | '\\' :: [] => .error ()
    | c :: rest => pure (.char c, rest)

end

/-- Model of `re.compile` for the core dialect: parse the whole pattern;
leftover input (an unbalanced `)`) is a syntax error.  The program catches
`re.error`, so the error carries no payload here. -/
def compileRegex (pat : List Char) : Except Unit Regex := do
  let (r, rest) ← parseAlt (pat.length * 8 + 8) pat
  match rest with
  | [] => pure r
  | _ => .error ()

/-- Per-line dispatch of `output_formatted_data`: the `if/elif` chain over
the mutually exclusive mode flags.  Returns (stdout text, artifact bytes). -/
def outputFormattedData (underscore color machine : Bool) (file_name line : List Char)
    (line_no : Nat) (ms : List MatchRec) : List Char × List Char :=
  if underscore then (underscoreFormat file_name line line_no ms, [])
  else if color then (colorFormat file_name line line_no ms, [])
  else if machine then ([], machineChunk file_name line line_no ms)
  else (defaultFormat file_name line line_no ms, [])

/-- `search_matches`: for each line (1-indexed), strip every newline
character (`line.replace("\n", "")`), run the match engine, format. -/
def searchMatches (underscore color machine : Bool) (r : Regex) (file_name : List Char) :
    Nat → List (List Char) → List Char × List Char
  | _, [] => ([], [])
  | line_no, raw :: rest =>
    let line := raw.filter (fun ch => ch != '\n')
    let e := outputFormattedData underscore color machine file_name line line_no (finditer r line)
    let e2 := searchMatches underscore color machine r file_name (line_no + 1) rest
    (e.1 ++ e2.1, e.2 ++ e2.2)

/-- Observable outcome of one program run: the process exit status, the text
printed to stdout, the bytes appended to the machine artifact, and the names
of the files opened, in order. -/
structure RunResult where
  exitCode : Nat
  out : List Char
  artifact : List Char
  opened : List (List Char)
deriving Repr, DecidableEq

/-- `get_content` over an explicit file list: open each file in order; a
missing file prints a diagnostic and stops the process via `exit()`, which
terminates with status zero.  Normal completion also exits with status 0. -/
def processFiles (env : List Char → Option (List (List Char))) (underscore color machine : Bool)
    (r : Regex) : List (List Char) → RunResult
  | [] => ⟨0, [], [], []⟩
  | f :: rest =>
    match env f with
    | none => ⟨0, "File not found error: ".toList ++ f ++ ['\n'], [], []⟩
    | some content =>
      let e := searchMatches underscore color machine r f 1 content
      let rr := processFiles env underscore color machine r rest
      ⟨rr.exitCode, e.1 ++ rr.out, e.2 ++ rr.artifact, f :: rr.opened⟩

/-- The prompt printed before reading standard input. -/
def promptText : List Char :=
  ("Enter text to searches for lines matching regular expression" ++
    "(Press CTRL+D (Unix) or CTRL+Z (Windows) to exit): ").toList ++ ['\n']

/-- The whole run of `RegularExpressionFinder`: compile the pattern (an
invalid pattern prints a diagnostic and exits, status zero, touching no
source), then scan the named files or standard input. -/
def run (env : List Char → Option (List (List Char))) (stdin : List (List Char))
    (pat : List Char) (files : Option (List (List Char))) (underscore color machine : Bool) :
    RunResult :=
  match compileRegex pat with
  | .error _ => ⟨0, "Invalid regular expression".toList ++ ['\n'], [], []⟩
  | .ok r =>
    match files with
    | some fs => processFiles env underscore color machine r fs
    | none =>
      let e := searchMatches underscore color machine r "STDIN".toList 1 stdin
      ⟨0, promptText ++ e.1, e.2, []⟩

/-- Sorted, in-bounds match-record list starting at offset `p`: the shape the
engine emits (each start at or after the previous stop, start at most stop). -/
def sortedFrom : Nat → List MatchRec → Bool
  | _, [] => true
  | p, m :: rest => (decide (p ≤ m.start) && decide (m.start ≤ m.stop)) && sortedFrom m.stop rest

/-- The value of `last_index` after the formatter loops: the previous end
offset, starting from `p`. -/
def lastIndexFrom (p : Nat) (ms : List MatchRec) : Nat :=
  ms.foldl (fun _ m => m.stop) p

/-- Modelled from the spec's words for the Underscore variant: spaces for
the gap before each match, carets spanning the match, continuing from each
match's end; nothing is rendered after the last match. -/
def caretSpecFrom : Nat → List MatchRec → List Char
  | _, [] => []
  | p, m :: rest =>
    List.replicate (m.start - p) ' ' ++
      (List.replicate (m.stop - m.start) '^' ++ caretSpecFrom m.stop rest)

/-- Modelled from the spec's words for the Color variant: non-matched spans
verbatim, each matched span wrapped in the escape/reset pair, and the
trailing unmatched suffix appended after the loop. -/
def colorSpecFrom (line : List Char) : Nat → List MatchRec → List Char
  | p, [] => line.drop p
  | p, m :: rest =>
    slice line p m.start ++ escSeq ++ slice line m.start m.stop ++ resetSeq ++
      colorSpecFrom line m.stop rest

/-- Fuel-indexed deletion of every occurrence of the color-escape and reset
sequences from a text (the fuel is at least the length, so it never runs
out); formalises "deleting all color-escape and reset sequences". -/
def stripMarksF : Nat → List Char → List Char
  | 0, s => s
  | _ + 1, [] => []
  | k + 1, c :: rest =>
    if (c :: rest).take 5 = escSeq ∨ (c :: rest).take 5 = resetSeq then
      stripMarksF k ((c :: rest).drop 5)
    else c :: stripMarksF k rest

/-- Deletion of every occurrence of the color-escape and reset sequences. -/
def stripMarks (s : List Char) : List Char := stripMarksF s.length s

theorem mem_of_head_eq_some {α : Type} {l : List α} {a : α} (h : l.head? = some a) : a ∈ l := by
  cases l with
  | nil => simp at h
  | cons x t =>
    simp at h
    simp [h]

theorem matchLensF_le (f : Nat) :
    ∀ (r : Regex) (s : List Char), ∀ l ∈ matchLensF f r s, l ≤ s.length := by
  induction f with
  | zero =>
    intro r s l hl
    simp [matchLensF] at hl
  | succ f ih =>
    intro r s l hl
    match r with
    | .epsilon =>
      simp [matchLensF] at hl
      omega
    | .char c =>
      match s with
      | [] => simp [matchLensF] at hl
      | a :: t =>
        simp only [matchLensF] at hl
        split at hl <;> simp_all
    | .anyChar =>
      match s with
      | [] => simp [matchLensF] at hl
      | a :: t => simp_all [matchLensF]
    | .cls cs neg =>
      match s with
      | [] => simp [matchLensF] at hl
      | a :: t =>
        simp only [matchLensF] at hl
        split at hl <;> simp_all
    | .concat r1 r2 =>
      simp only [matchLensF, List.mem_flatMap, List.mem_map] at hl
      obtain ⟨l1, h1, l2, h2, rfl⟩ := hl
      have b1 := ih r1 s l1 h1
      have b2 := ih r2 (s.drop l1) l2 h2
      rw [List.length_drop] at b2
      omega
    | .alt r1 r2 =>
      simp only [matchLensF, List.mem_append] at hl
      rcases hl with hl | hl
      · exact ih r1 s l hl
      · exact ih r2 s l hl
    | .star r1 =>
      simp only [matchLensF, List.mem_append, List.mem_flatMap, List.mem_map,
        List.mem_filter] at hl
      rcases hl with ⟨l1, ⟨h1, hpos⟩, l2, h2, rfl⟩ | hl
      · have b1 := ih r1 s l1 h1
        have b2 := ih (.star r1) (s.drop l1) l2 h2
        rw [List.length_drop] at b2
        omega
      · simp at hl
        omega

theorem matchLens_le (r : Regex) (s : List Char) : ∀ l ∈ matchLens r s, l ≤ s.length :=
  matchLensF_le _ r s

theorem firstMatchF_bounds (r : Regex) (s : List Char) :
    ∀ k p st en, firstMatchF r s k p = some (st, en) → p ≤ st ∧ st ≤ en ∧ en ≤ s.length := by
  intro k
  induction k with
  | zero =>
    intro p st en h
    simp [firstMatchF] at h
  | succ k ih =>
    intro p st en h
    rw [firstMatchF] at h
    split at h
    · split at h
      · next l heq =>
        have hmem := matchLens_le r (s.drop p) l (mem_of_head_eq_some heq)
        rw [List.length_drop] at hmem
        simp at h
        omega
      · have := ih (p + 1) st en h
        omega
    · simp at h

theorem firstMatchFrom_bounds (r : Regex) (s : List Char) (p st en : Nat)
    (h : firstMatchFrom r s p = some (st, en)) : p ≤ st ∧ st ≤ en ∧ en ≤ s.length :=
  firstMatchF_bounds r s _ p st en h

theorem firstMatchFrom_none_of_gt (r : Regex) (s : List Char) {p : Nat} (h : s.length < p) :
    firstMatchFrom r s p = none := by
  unfold firstMatchFrom
  have hz : s.length + 1 - p = 0 := by omega
  rw [hz]
  rfl

theorem finditerF_mem (r : Regex) (s : List Char) :
    ∀ k p, ∀ m ∈ finditerF r s k p,
      p ≤ m.start ∧ m.start ≤ m.stop ∧ m.stop ≤ s.length ∧ m.text = slice s m.start m.stop := by
  intro k
  induction k with
  | zero =>
    intro p m hm
    simp [finditerF] at hm
  | succ k ih =>
    intro p m hm
    rw [finditerF] at hm
    split at hm
    · simp at hm
    · next st en heq =>
      have hb := firstMatchFrom_bounds r s p st en heq
      rcases List.mem_cons.mp hm with rfl | hm'
      · exact ⟨hb.1, hb.2.1, hb.2.2, rfl⟩
      · have := ih _ m hm'
        have hcur : st < (if st < en then en else en + 1) ∧
            en ≤ (if st < en then en else en + 1) := by
          split <;> omega
        refine ⟨by omega, this.2.1, this.2.2.1, this.2.2.2⟩

theorem finditerF_pairwise (r : Regex) (s : List Char) :
    ∀ k p, List.Pairwise (fun a b => a.start < b.start ∧ a.stop ≤ b.start)
      (finditerF r s k p) := by
  intro k
  induction k with
  | zero =>
    intro p
    simp [finditerF]
  | succ k ih =>
    intro p
    rw [finditerF]
    split
    · simp
    · next st en heq =>
      have hb := firstMatchFrom_bounds r s p st en heq
      refine List.pairwise_cons.mpr ⟨?_, ih _⟩
      intro m hm
      have hmem := finditerF_mem r s k _ m hm
      have hcur : st < (if st < en then en else en + 1) ∧
          en ≤ (if st < en then en else en + 1) := by
        split <;> omega
      obtain ⟨hc1, hc2⟩ := hcur
      refine ⟨?_, ?_⟩
      · show st < m.start
        omega
      · show en ≤ m.start
        omega

theorem finditerF_chain (r : Regex) (s : List Char) :
    ∀ k p, List.Chain' (fun a b => a.stop ≤ b.start ∧ nextCursor a ≤ b.start)
      (finditerF r s k p) := by
  intro k
  induction k with
  | zero =>
    intro p
    simp [finditerF]
  | succ k ih =>
    intro p
    rw [finditerF]
    split
    · simp
    · next st en heq =>
      refine List.chain'_cons'.mpr ⟨?_, ih _⟩
      intro b hb
      have hbmem : b ∈ finditerF r s k (if st < en then en else en + 1) :=
        mem_of_head_eq_some hb
      have hmem := finditerF_mem r s k _ b hbmem
      have hc2 : en ≤ (if st < en then en else en + 1) := by split <;> omega
      refine ⟨?_, ?_⟩
      · show en ≤ b.start
        omega
      · show (if st < en then en else en + 1) ≤ b.start
        exact hmem.1

theorem finditerF_length (r : Regex) (s : List Char) :
    ∀ k p, (finditerF r s k p).length ≤ s.length + 1 - p := by
  intro k
  induction k with
  | zero =>
    intro p
    simp [finditerF]
  | succ k ih =>
    intro p
    rw [finditerF]
    split
    · simp
    · next st en heq =>
      have hb := firstMatchFrom_bounds r s p st en heq
      have hrest := ih (if st < en then en else en + 1)
      have hcur : p < (if st < en then en else en + 1) := by split <;> omega
      simp only [List.length_cons]
      omega

theorem finditerF_stable (r : Regex) (s : List Char) :
    ∀ k k' p, s.length + 1 - p ≤ k → s.length + 1 - p ≤ k' →
      finditerF r s k p = finditerF r s k' p := by
  intro k
  induction k with
  | zero =>
    intro k' p h h'
    have hnone := firstMatchFrom_none_of_gt r s (p := p) (by omega)
    cases k' with
    | zero => rfl
    | succ k' =>
      rw [finditerF, finditerF, hnone]
  | succ k ih =>
    intro k' p h h'
    cases k' with
    | zero =>
      have hnone := firstMatchFrom_none_of_gt r s (p := p) (by omega)
      rw [finditerF, finditerF, hnone]
    | succ k' =>
      cases hfm : firstMatchFrom r s p with
      | none => simp only [finditerF, hfm]
      | some pe =>
        obtain ⟨st, en⟩ := pe
        have hb := firstMatchFrom_bounds r s p st en hfm
        have hcur : p < (if st < en then en else en + 1) := by split <;> omega
        simp only [finditerF, hfm]
        rw [ih k' (if st < en then en else en + 1) (by omega) (by omega)]

theorem slice_append_drop (l : List Char) {a b : Nat} (h : a ≤ b) :
    slice l a b ++ l.drop b = l.drop a := by
  unfold slice
  have hd : l.drop b = (l.drop a).drop (b - a) := by
    rw [List.drop_drop]
    congr 1
    omega
  rw [hd, List.take_append_drop]

theorem finditerF_chunks (r : Regex) (s : List Char) :
    ∀ k q p, p ≤ q → chunks s p (finditerF r s k q) = s.drop p := by
  intro k
  induction k with
  | zero =>
    intro q p hpq
    simp [finditerF, chunks]
  | succ k ih =>
    intro q p hpq
    rw [finditerF]
    cases hfm : firstMatchFrom r s q with
    | none => simp [chunks]
    | some pe =>
      obtain ⟨st, en⟩ := pe
      have hb := firstMatchFrom_bounds r s q st en hfm
      have hcur : en ≤ (if st < en then en else en + 1) := by split <;> omega
      simp only [chunks]
      rw [ih (if st < en then en else en + 1) en hcur, List.append_assoc,
        slice_append_drop s (by omega), slice_append_drop s (by omega)]

/-- C1: for every pattern of the dialect and every line, the match records
produced by the engine's scan (`pattern.finditer` over the line) stay within
the line (`start ≤ end ≤ length`, the text being the matched span), the
start offsets are strictly increasing with non-overlapping spans, and
concatenating each pre-span gap with its span, plus the trailing gap,
reconstructs the line exactly. -/
theorem finditer_spans_partition (r : Regex) (s : List Char) :
    (∀ m ∈ finditer r s,
      m.start ≤ m.stop ∧ m.stop ≤ s.length ∧ m.text = slice s m.start m.stop) ∧
    List.Pairwise (fun a b => a.start < b.start ∧ a.stop ≤ b.start) (finditer r s) ∧
    chunks s 0 (finditer r s) = s := by
  refine ⟨?_, finditerF_pairwise r s _ _, ?_⟩
  · intro m hm
    have h := finditerF_mem r s _ _ m hm
    exact ⟨h.2.1, h.2.2.1, h.2.2.2⟩
  · have h := finditerF_chunks r s (s.length + 1) 0 0 le_rfl
    simpa using h

/-- Witness for C1 at the pattern `a+` and the line `"baaab"`. -/
theorem finditer_spans_partition_witness :
    chunks "baaab".toList 0
      (finditer
        (Regex.concat (Regex.concat (Regex.char 'a') (Regex.star (Regex.char 'a')))
          Regex.epsilon)
        "baaab".toList) = "baaab".toList :=
  (finditer_spans_partition _ _).2.2

/-- C5: the scan loop terminates after at most `length + 1` steps — extra
fuel never changes the result and the match sequence has at most
`length + 1` records — and between consecutive records the cursor advanced
to the previous end offset, bumped by one when that match was empty. -/
theorem finditer_scan_terminates (r : Regex) (s : List Char) :
    (∀ j, finditerF r s (s.length + 1 + j) 0 = finditer r s) ∧
    (finditer r s).length ≤ s.length + 1 ∧
    List.Chain' (fun a b => a.stop ≤ b.start ∧ nextCursor a ≤ b.start) (finditer r s) := by
  refine ⟨fun j => finditerF_stable r s _ _ 0 (by omega) (by omega), ?_,
    finditerF_chain r s _ _⟩
  have h := finditerF_length r s (s.length + 1) 0
  unfold finditer
  omega

/-- Witness for C5 at the pattern `a*` and the line `"bab"`, where the
engine emits zero-length matches. -/
theorem finditer_scan_terminates_witness :
    (finditer (Regex.star (Regex.char 'a')) "bab".toList).length ≤ "bab".toList.length + 1 :=
  (finditer_scan_terminates _ _).2.1

theorem defaultFormat_foldl (f : List Char) (n : Nat) :
    ∀ (ms : List MatchRec) (acc : List Char),
      ms.foldl
        (fun acc m =>
          acc ++ "file name: ".toList ++ f ++ ", line: ".toList ++ natToChars n ++
            ", matched_text: ".toList ++ m.text ++ ['\n'])
        acc =
      acc ++ (ms.map
        (fun m =>
          "file name: ".toList ++ f ++ ", line: ".toList ++ natToChars n ++
            ", matched_text: ".toList ++ m.text ++ ['\n'])).flatten := by
  intro ms
  induction ms with
  | nil =>
    intro acc
    simp
  | cons m rest ih =>
    intro acc
    simp only [List.foldl_cons, List.map_cons, List.flatten_cons]
    rw [ih]
    simp [List.append_assoc]

/-- C8: the Default formatter emits, for every match, exactly the line
`file name: <source>, line: <n>, matched_text: <text>`, and nothing for a
line with zero matches; Scenario A: pattern `a+` on `"baaab"` of source `f`
emits exactly `file name: f, line: 1, matched_text: aaa`. -/
theorem default_formatter_spec :
    (∀ (f line : List Char) (n : Nat), defaultFormat f line n [] = []) ∧
    (∀ (f line : List Char) (n : Nat) (ms : List MatchRec),
      defaultFormat f line n ms =
        (ms.map
          (fun m =>
            "file name: ".toList ++ f ++ ", line: ".toList ++ natToChars n ++
              ", matched_text: ".toList ++ m.text ++ ['\n'])).flatten) ∧
    (compileRegex "a+".toList).map
        (fun r => defaultFormat "f".toList "baaab".toList 1 (finditer r "baaab".toList)) =
      Except.ok "file name: f, line: 1, matched_text: aaa\n".toList := by
  refine ⟨fun f line n => rfl, fun f line n ms => ?_, by rfl⟩
  unfold defaultFormat
  rw [defaultFormat_foldl f n ms []]
  simp

theorem machineRecords_foldl (f : List Char) (n : Nat) :
    ∀ (ms : List MatchRec) (acc : List (List Char)),
      ms.foldl
        (fun acc m =>
          acc ++ [f ++ ':' :: natToChars n ++ ':' :: natToChars m.start ++ ':' :: m.text])
        acc =
      acc ++ ms.map
        (fun m => f ++ ':' :: natToChars n ++ ':' :: natToChars m.start ++ ':' :: m.text) := by
  intro ms
  induction ms with
  | nil =>
    intro acc
    simp
  | cons m rest ih =>
    intro acc
    simp only [List.foldl_cons, List.map_cons]
    rw [ih]
    simp

/-- C6: the Machine formatter builds, for every match, the record string
`source_id:line_number:start_offset:matched_substring`; Scenario E: pattern
`\d+` on line `"id7"` at line 5 of source `"a.txt"` yields the single record
string `"a.txt:5:2:7"`. -/
theorem machine_record_string :
    (∀ (f : List Char) (n : Nat) (ms : List MatchRec),
      machineRecords f n ms =
        ms.map (fun m => f ++ ':' :: natToChars n ++ ':' :: natToChars m.start ++ ':' :: m.text)) ∧
    (compileRegex "\\d+".toList).map
        (fun r => machineRecords "a.txt".toList 5 (finditer r "id7".toList)) =
      Except.ok ["a.txt:5:2:7".toList] := by
  refine ⟨fun f n ms => ?_, by rfl⟩
  unfold machineRecords
  rw [machineRecords_foldl f n ms []]
  simp

/-- C3 counterexample: a scanned line with an empty match sequence does not
leave the machine artifact unchanged — the formatter still appends the
two-byte empty JSON array `[]`. -/
theorem machine_empty_matches_appends :
    machineChunk "a.txt".toList "abc".toList 1 [] = "[]".toList ∧
    (machineChunk "a.txt".toList "abc".toList 1 [] == ([] : List Char)) = false := by
  exact ⟨rfl, rfl⟩

/-- C3 (amended): for a scanned line whose match sequence is empty the
Machine formatter emits no record string, but it still appends the empty
JSON array `[]` to the fixed-named artifact — the artifact grows on every
processed line in machine mode, not only on lines with matches. -/
theorem machine_empty_array_on_no_match (f line : List Char) (n : Nat) :
    machineRecords f n ([] : List MatchRec) = [] ∧
    machineChunk f line n [] = "[]".toList := by
  exact ⟨rfl, rfl⟩

/-- C10: the Underscore and Color formatters never read the `file_name` and
`line_no` arguments — two calls with the same line and match sequence but
different source identifiers or line numbers print byte-identical output. -/
theorem formatter_ignores_source_and_line (f1 f2 line : List Char) (n1 n2 : Nat)
    (ms : List MatchRec) :
    underscoreFormat f1 line n1 ms = underscoreFormat f2 line n2 ms ∧
    colorFormat f1 line n1 ms = colorFormat f2 line n2 ms := by
  exact ⟨rfl, rfl⟩

theorem underscoreCarets_foldl :
    ∀ (ms : List MatchRec) (acc : List Char) (p : Nat),
      (ms.foldl
        (fun (acc : List Char × Nat) m =>
          (acc.1 ++ List.replicate (m.start - acc.2) ' ' ++
            List.replicate (m.stop - m.start) '^', m.stop))
        (acc, p)).1 = acc ++ caretSpecFrom p ms := by
  intro ms
  induction ms with
  | nil =>
    intro acc p
    simp [caretSpecFrom]
  | cons m rest ih =>
    intro acc p
    simp only [List.foldl_cons]
    rw [ih]
    simp [caretSpecFrom, List.append_assoc]

theorem underscoreCarets_eq_caretSpec (ms : List MatchRec) :
    underscoreCarets ms = caretSpecFrom 0 ms := by
  unfold underscoreCarets
  rw [underscoreCarets_foldl ms [] 0]
  simp

theorem sortedFrom_mem :
    ∀ (ms : List MatchRec) (p : Nat), sortedFrom p ms = true →
      ∀ m ∈ ms, p ≤ m.start ∧ m.start ≤ m.stop := by
  intro ms
  induction ms with
  | nil =>
    intro p h m hm
    simp at hm
  | cons a rest ih =>
    intro p h m hm
    simp only [sortedFrom, Bool.and_eq_true, decide_eq_true_eq] at h
    obtain ⟨⟨h1, h2⟩, h3⟩ := h
    rcases List.mem_cons.mp hm with rfl | hm'
    · exact ⟨h1, h2⟩
    · have hr := ih a.stop h3 m hm'
      exact ⟨by omega, hr.2⟩

theorem lastIndexFrom_ge :
    ∀ (ms : List MatchRec) (p : Nat), sortedFrom p ms = true → p ≤ lastIndexFrom p ms := by
  intro ms
  induction ms with
  | nil =>
    intro p h
    exact le_rfl
  | cons a rest ih =>
    intro p h
    simp only [sortedFrom, Bool.and_eq_true, decide_eq_true_eq] at h
    obtain ⟨⟨h1, h2⟩, h3⟩ := h
    have := ih a.stop h3
    show p ≤ lastIndexFrom a.stop rest
    omega

theorem caretSpecFrom_length :
    ∀ (ms : List MatchRec) (p : Nat), sortedFrom p ms = true →
      (caretSpecFrom p ms).length = lastIndexFrom p ms - p := by
  intro ms
  induction ms with
  | nil =>
    intro p h
    simp [caretSpecFrom, lastIndexFrom]
  | cons a rest ih =>
    intro p h
    simp only [sortedFrom, Bool.and_eq_true, decide_eq_true_eq] at h
    obtain ⟨⟨h1, h2⟩, h3⟩ := h
    have hlen := ih a.stop h3
    have hge := lastIndexFrom_ge rest a.stop h3
    show (List.replicate (a.start - p) ' ' ++
      (List.replicate (a.stop - a.start) '^' ++ caretSpecFrom a.stop rest)).length =
      lastIndexFrom a.stop rest - p
    simp only [List.length_append, List.length_replicate]
    omega

theorem caretSpecFrom_chars :
    ∀ (ms : List MatchRec) (p : Nat), ∀ x ∈ caretSpecFrom p ms, x = '^' ∨ x = ' ' := by
  intro ms
  induction ms with
  | nil =>
    intro p x hx
    simp [caretSpecFrom] at hx
  | cons a rest ih =>
    intro p x hx
    simp only [caretSpecFrom, List.mem_append, List.mem_replicate] at hx
    rcases hx with ⟨_, rfl⟩ | ⟨_, rfl⟩ | hx
    · right; rfl
    · left; rfl
    · exact ih a.stop x hx

theorem caretSpecFrom_caret_iff :
    ∀ (ms : List MatchRec) (p i : Nat), sortedFrom p ms = true →
      ((caretSpecFrom p ms)[i]? = some '^' ↔
        ∃ m, m ∈ ms ∧ m.start ≤ p + i ∧ p + i < m.stop) := by
  intro ms
  induction ms with
  | nil =>
    intro p i h
    simp [caretSpecFrom]
  | cons a rest ih =>
    intro p i h
    simp only [sortedFrom, Bool.and_eq_true, decide_eq_true_eq] at h
    obtain ⟨⟨h1, h2⟩, h3⟩ := h
    show (List.replicate (a.start - p) ' ' ++
      (List.replicate (a.stop - a.start) '^' ++ caretSpecFrom a.stop rest))[i]? = some '^' ↔ _
    rcases Nat.lt_or_ge i (a.start - p) with hi | hi
    · rw [List.getElem?_append_left (by simpa using hi), List.getElem?_replicate, if_pos hi]
      constructor
      · intro hx
        simp at hx
      · rintro ⟨m, hm, hml, hmr⟩
        rcases List.mem_cons.mp hm with rfl | hm'
        · omega
        · have := sortedFrom_mem rest a.stop h3 m hm'
          omega
    · rw [List.getElem?_append_right (by simpa using hi), List.length_replicate]
      rcases Nat.lt_or_ge (i - (a.start - p)) (a.stop - a.start) with hj | hj
      · rw [List.getElem?_append_left (by simpa using hj), List.getElem?_replicate, if_pos hj]
        constructor
        · intro _
          exact ⟨a, List.mem_cons_self a rest, by omega, by omega⟩
        · intro _
          rfl
      · rw [List.getElem?_append_right (by simpa using hj), List.length_replicate]
        have harith : a.stop + (i - (a.start - p) - (a.stop - a.start)) = p + i := by omega
        have hih := ih a.stop (i - (a.start - p) - (a.stop - a.start)) h3
        rw [harith] at hih
        rw [hih]
        constructor
        · rintro ⟨m, hm, hml, hmr⟩
          exact ⟨m, List.mem_cons_of_mem a hm, hml, hmr⟩
        · rintro ⟨m, hm, hml, hmr⟩
          rcases List.mem_cons.mp hm with rfl | hm'
          · omega
          · exact ⟨m, hm', hml, hmr⟩

/-- C4 counterexample: the caret line stops at the last match's end — the
gap after the last match is not rendered as spaces, and for a line with
zero matches the second line is empty rather than all spaces of the line's
length (`"abc"` with no matches prints `"abc\n\n"`, not `"abc\n   \n"`). -/
theorem underscore_trailing_gap_missing :
    underscoreFormat "f".toList "abc".toList 1 [] = "abc".toList ++ '\n' :: '\n' :: [] ∧
    (underscoreFormat "f".toList "abc".toList 1 [] ==
      "abc".toList ++ '\n' :: (List.replicate 3 ' ' ++ ['\n'])) = false ∧
    underscoreCarets [⟨0, 1, ['a']⟩] = ['^'] := by
  exact ⟨rfl, rfl, rfl⟩

/-- C4 (amended): the Underscore formatter prints the raw line and then a
second line of caret runs of width `end - start` exactly spanning each
match, with spaces for the gaps before and between matches; the second line
ends at the last match's end offset (`last_index`), so the gap after the
last match is not rendered and a line with zero matches gets an empty
second line. -/
theorem underscore_caret_line_spec (f line : List Char) (n : Nat) (ms : List MatchRec)
    (h : sortedFrom 0 ms = true) :
    underscoreFormat f line n ms = line ++ '\n' :: (caretSpecFrom 0 ms ++ ['\n']) ∧
    (∀ i, (caretSpecFrom 0 ms)[i]? = some '^' ↔
      ∃ m, m ∈ ms ∧ m.start ≤ i ∧ i < m.stop) ∧
    (∀ x ∈ caretSpecFrom 0 ms, x = '^' ∨ x = ' ') ∧
    (caretSpecFrom 0 ms).length = lastIndexFrom 0 ms ∧
    underscoreCarets [] = [] := by
  refine ⟨?_, ?_, caretSpecFrom_chars ms 0, ?_, rfl⟩
  · unfold underscoreFormat
    rw [underscoreCarets_eq_caretSpec]
  · intro i
    have := caretSpecFrom_caret_iff ms 0 i h
    simpa using this
  · have := caretSpecFrom_length ms 0 h
    omega

/-- Witness for C4 (amended) at Scenario A's line and matches. -/
theorem underscore_caret_line_spec_witness :
    sortedFrom 0 [⟨1, 4, "aaa".toList⟩] = true ∧
    underscoreFormat "f".toList "baaab".toList 1 [⟨1, 4, "aaa".toList⟩] =
      "baaab".toList ++ '\n' :: (caretSpecFrom 0 [⟨1, 4, "aaa".toList⟩] ++ ['\n']) :=
  ⟨by decide, (underscore_caret_line_spec "f".toList "baaab".toList 1 _ (by decide)).1⟩

theorem stripMarksF_stable :
    ∀ (k k' : Nat) (s : List Char), s.length ≤ k → s.length ≤ k' →
      stripMarksF k s = stripMarksF k' s := by
  intro k
  induction k with
  | zero =>
    intro k' s h h'
    have hs : s = [] := List.length_eq_zero.mp (by omega)
    subst hs
    cases k' <;> rfl
  | succ k ih =>
    intro k' s h h'
    cases s with
    | nil => cases k' <;> rfl
    | cons c rest =>
      cases k' with
      | zero => simp at h'
      | succ k' =>
        simp only [stripMarksF]
        split
        · apply ih
          · simp only [List.length_drop, List.length_cons]
            simp only [List.length_cons] at h
            omega
          · simp only [List.length_drop, List.length_cons]
            simp only [List.length_cons] at h'
            omega
        · rw [ih k' rest (by simp at h; omega) (by simp at h'; omega)]

theorem stripMarks_cons_ne {c : Char} (hc : c ≠ '\x1b') (u : List Char) :
    stripMarks (c :: u) = c :: stripMarks u := by
  show stripMarksF (c :: u).length (c :: u) = c :: stripMarks u
  rw [List.length_cons]
  simp only [stripMarksF]
  rw [if_neg]
  · rfl
  · intro hor
    rcases hor with hh | hh
    · rw [show (c :: u).take 5 = c :: u.take 4 from rfl] at hh
      simp [escSeq] at hh
      exact hc hh.1
    · rw [show (c :: u).take 5 = c :: u.take 4 from rfl] at hh
      simp [resetSeq] at hh
      exact hc hh.1

theorem stripMarks_esc (t : List Char) : stripMarks (escSeq ++ t) = stripMarks t := by
  show stripMarksF (escSeq ++ t).length (escSeq ++ t) = stripMarks t
  have hlen : (escSeq ++ t).length = t.length + 4 + 1 := by
    simp only [List.length_append, escSeq, List.length_cons, List.length_nil]
    omega
  rw [hlen]
  show stripMarksF (t.length + 4 + 1) ('\x1b' :: '[' :: '9' :: '1' :: 'm' :: t) = stripMarks t
  simp only [stripMarksF]
  have hcond : List.take 5 ('\x1b' :: '[' :: '9' :: '1' :: 'm' :: t) = escSeq ∨
      List.take 5 ('\x1b' :: '[' :: '9' :: '1' :: 'm' :: t) = resetSeq := Or.inl rfl
  rw [if_pos hcond]
  show stripMarksF (t.length + 4) t = stripMarks t
  exact stripMarksF_stable (t.length + 4) t.length t (by omega) le_rfl

theorem stripMarks_reset (t : List Char) : stripMarks (resetSeq ++ t) = stripMarks t := by
  show stripMarksF (resetSeq ++ t).length (resetSeq ++ t) = stripMarks t
  have hlen : (resetSeq ++ t).length = t.length + 4 + 1 := by
    simp only [List.length_append, resetSeq, List.length_cons, List.length_nil]
    omega
  rw [hlen]
  show stripMarksF (t.length + 4 + 1) ('\x1b' :: '[' :: '0' :: '0' :: 'm' :: t) = stripMarks t
  simp only [stripMarksF]
  have hcond : List.take 5 ('\x1b' :: '[' :: '0' :: '0' :: 'm' :: t) = escSeq ∨
      List.take 5 ('\x1b' :: '[' :: '0' :: '0' :: 'm' :: t) = resetSeq := Or.inr rfl
  rw [if_pos hcond]
  show stripMarksF (t.length + 4) t = stripMarks t
  exact stripMarksF_stable (t.length + 4) t.length t (by omega) le_rfl

theorem stripMarks_append :
    ∀ (a t : List Char), '\x1b' ∉ a → stripMarks (a ++ t) = a ++ stripMarks t := by
  intro a
  induction a with
  | nil =>
    intro t ha
    simp
  | cons c a' ih =>
    intro t ha
    have hc : c ≠ '\x1b' := by
      intro hh
      exact ha (by simp [hh])
    have ha' : '\x1b' ∉ a' := by
      intro hh
      exact ha (List.mem_cons_of_mem c hh)
    rw [List.cons_append, stripMarks_cons_ne hc, ih t ha']
    rfl

theorem stripMarks_of_not_mem (s : List Char) (hs : '\x1b' ∉ s) : stripMarks s = s := by
  have h := stripMarks_append s [] hs
  rw [List.append_nil, show stripMarks ([] : List Char) = [] from rfl, List.append_nil] at h
  exact h

theorem slice_subset (l : List Char) (a b : Nat) : slice l a b ⊆ l := by
  intro x hx
  unfold slice at hx
  exact List.mem_of_mem_drop (List.mem_of_mem_take hx)

theorem colorBody_foldl (line : List Char) :
    ∀ (ms : List MatchRec) (acc : List Char) (p : Nat),
      (ms.foldl
        (fun (acc : List Char × Nat) m =>
          (acc.1 ++ slice line acc.2 m.start ++ escSeq ++ slice line m.start m.stop ++ resetSeq,
            m.stop))
        (acc, p)).1 ++
        line.drop
          (ms.foldl
            (fun (acc : List Char × Nat) m =>
              (acc.1 ++ slice line acc.2 m.start ++ escSeq ++ slice line m.start m.stop ++
                resetSeq, m.stop))
            (acc, p)).2 =
      acc ++ colorSpecFrom line p ms := by
  intro ms
  induction ms with
  | nil =>
    intro acc p
    simp [colorSpecFrom]
  | cons m rest ih =>
    intro acc p
    simp only [List.foldl_cons]
    rw [ih]
    simp [colorSpecFrom, List.append_assoc]

theorem colorFormat_eq (f line : List Char) (n : Nat) (ms : List MatchRec) :
    colorFormat f line n ms = colorSpecFrom line 0 ms ++ ['\n'] := by
  unfold colorFormat colorBody
  rw [colorBody_foldl line ms [] 0]
  simp

theorem stripMarks_colorSpec (line : List Char) :
    ∀ (ms : List MatchRec) (p : Nat) (t : List Char),
      sortedFrom p ms = true → '\x1b' ∉ line → '\x1b' ∉ t →
      stripMarks (colorSpecFrom line p ms ++ t) = line.drop p ++ t := by
  intro ms
  induction ms with
  | nil =>
    intro p t h hline ht
    show stripMarks (line.drop p ++ t) = line.drop p ++ t
    apply stripMarks_of_not_mem
    intro hmem
    rcases List.mem_append.mp hmem with hm | hm
    · exact hline (List.drop_subset p line hm)
    · exact ht hm
  | cons m rest ih =>
    intro p t h hline ht
    simp only [sortedFrom, Bool.and_eq_true, decide_eq_true_eq] at h
    obtain ⟨⟨h1, h2⟩, h3⟩ := h
    have hgap : '\x1b' ∉ slice line p m.start := fun hm => hline (slice_subset line p m.start hm)
    have hspan : '\x1b' ∉ slice line m.start m.stop :=
      fun hm => hline (slice_subset line m.start m.stop hm)
    show stripMarks
      ((slice line p m.start ++ escSeq ++ slice line m.start m.stop ++ resetSeq ++
        colorSpecFrom line m.stop rest) ++ t) = line.drop p ++ t
    rw [show (slice line p m.start ++ escSeq ++ slice line m.start m.stop ++ resetSeq ++
        colorSpecFrom line m.stop rest) ++ t =
      slice line p m.start ++ (escSeq ++ (slice line m.start m.stop ++ (resetSeq ++
        (colorSpecFrom line m.stop rest ++ t)))) by simp [List.append_assoc]]
    rw [stripMarks_append _ _ hgap, stripMarks_esc, stripMarks_append _ _ hspan,
      stripMarks_reset, ih m.stop t h3 hline ht]
    rw [show slice line p m.start ++ (slice line m.start m.stop ++ (line.drop m.stop ++ t)) =
      (slice line p m.start ++ (slice line m.start m.stop ++ line.drop m.stop)) ++ t by
        simp [List.append_assoc]]
    rw [slice_append_drop line h2, slice_append_drop line h1]

/-- C9 counterexample: for a line whose own text is the color-escape
sequence, deleting all color-escape and reset sequences from the Color
formatter's printed output does not yield the original line — with zero
matches the formatter echoes the line, and stripping deletes the line's own
bytes, leaving only the newline. -/
theorem color_strip_counterexample :
    stripMarks (colorFormat "f".toList escSeq 1 []) = ['\n'] ∧
    (stripMarks (colorFormat "f".toList escSeq 1 []) == escSeq ++ ['\n']) = false := by
  exact ⟨by decide, by decide⟩

/-- C9 (amended): for every line that does not itself contain the escape
character and every sorted in-bounds match sequence, the Color formatter's
printed output is exactly the non-matched spans verbatim, each matched span
wrapped in the escape/reset pair, and the trailing unmatched suffix, and
deleting all color-escape and reset sequences from it yields the original
line (followed by the printed newline). -/
theorem color_wraps_matches (f line : List Char) (n : Nat) (ms : List MatchRec)
    (h : sortedFrom 0 ms = true) (hline : '\x1b' ∉ line) :
    colorFormat f line n ms = colorSpecFrom line 0 ms ++ ['\n'] ∧
    stripMarks (colorFormat f line n ms) = line ++ ['\n'] := by
  refine ⟨colorFormat_eq f line n ms, ?_⟩
  rw [colorFormat_eq f line n ms]
  have hstrip := stripMarks_colorSpec line ms 0 ['\n'] h hline (by decide)
  simpa using hstrip

/-- Witness for C9 (amended) at the line `"abc"` with the single match
spanning `"b"`. -/
theorem color_wraps_matches_witness :
    sortedFrom 0 [⟨1, 2, ['b']⟩] = true ∧
    stripMarks (colorFormat "g".toList "abc".toList 7 [⟨1, 2, ['b']⟩]) =
      "abc".toList ++ ['\n'] :=
  ⟨by decide,
    (color_wraps_matches "g".toList "abc".toList 7 [⟨1, 2, ['b']⟩] (by decide) (by decide)).2⟩

/-- C2 counterexample: for the invalid pattern `"("` the process does not
terminate with a non-zero status — the program's bare `exit()` terminates
the process with exit status zero. -/
theorem invalid_pattern_exit_code_zero :
    (run (fun _ => none) [] "(".toList (some ["a.txt".toList]) false false false).exitCode
      = 0 := by
  rfl

/-- C2 (amended): if compiling the regular expression fails with a syntax
error, the program prints `Invalid regular expression` and terminates
immediately — with exit status zero, since it calls `exit()` with no
argument — before opening or processing any source, and without touching
the machine artifact. -/
theorem invalid_pattern_reports_and_stops
    (env : List Char → Option (List (List Char))) (stdin : List (List Char))
    (pat : List Char) (files : Option (List (List Char))) (u c m : Bool)
    (h : compileRegex pat = Except.error ()) :
    run env stdin pat files u c m =
      ⟨0, "Invalid regular expression".toList ++ ['\n'], [], []⟩ := by
  unfold run
  rw [h]

/-- Witness for C2 (amended) at the unbalanced pattern `"("`. -/
theorem invalid_pattern_reports_and_stops_witness :
    compileRegex "(".toList = Except.error () ∧
    run (fun _ => none) [] "(".toList (some ["a.txt".toList]) false false false =
      ⟨0, "Invalid regular expression".toList ++ ['\n'], [], []⟩ :=
  ⟨by rfl, invalid_pattern_reports_and_stops _ _ _ _ _ _ _ (by rfl)⟩

/-- C7 counterexample: with the missing file `"nofile.txt"` the process does
not exit with a non-zero status — the bare `exit()` terminates with status
zero. -/
theorem missing_file_exit_code_zero :
    (run (fun _ => none) [] ['a'] (some ["nofile.txt".toList]) false false false).exitCode
      = 0 := by
  rfl

theorem processFiles_exitCode (env : List Char → Option (List (List Char)))
    (u c m : Bool) (r : Regex) :
    ∀ fs, (processFiles env u c m r fs).exitCode = 0 := by
  intro fs
  induction fs with
  | nil => rfl
  | cons f rest ih =>
    cases hf : env f with
    | none => simp [processFiles, hf]
    | some content => simp [processFiles, hf, ih]

theorem processFiles_stops (env : List Char → Option (List (List Char)))
    (u c m : Bool) (r : Regex) :
    ∀ (fs1 : List (List Char)) (f : List Char) (fs2 fs2' : List (List Char)),
      (∀ g ∈ fs1, (env g).isSome) → env f = none →
      (processFiles env u c m r (fs1 ++ f :: fs2)).opened = fs1 ∧
      processFiles env u c m r (fs1 ++ f :: fs2) =
        processFiles env u c m r (fs1 ++ f :: fs2') := by
  intro fs1
  induction fs1 with
  | nil =>
    intro f fs2 fs2' h1 h2
    constructor
    · simp [processFiles, h2]
    · simp only [List.nil_append]
      simp [processFiles, h2]
  | cons g gs ih =>
    intro f fs2 fs2' h1 h2
    have hg : (env g).isSome := h1 g (List.mem_cons_self g gs)
    obtain ⟨content, hgc⟩ := Option.isSome_iff_exists.mp hg
    have ihh := ih f fs2 fs2' (fun x hx => h1 x (List.mem_cons_of_mem g hx)) h2
    constructor
    · rw [List.cons_append]
      simp only [processFiles, hgc]
      rw [ihh.1]
    · rw [List.cons_append, List.cons_append]
      simp only [processFiles, hgc]
      rw [ihh.2]

/-- C7 (amended): when a named input file does not exist (and the pattern
compiled), the run prints `File not found error: <name>` and stops
immediately — with exit status zero, since it calls `exit()` with no
argument; no file listed after the missing one is opened, read or
formatted, so the whole outcome is independent of the trailing file list. -/
theorem missing_file_stops_run (env : List Char → Option (List (List Char)))
    (stdin : List (List Char)) (pat : List Char) (r : Regex)
    (fs1 : List (List Char)) (f : List Char) (fs2 fs2' : List (List Char)) (u c m : Bool)
    (hok : compileRegex pat = Except.ok r)
    (h1 : ∀ g ∈ fs1, (env g).isSome) (h2 : env f = none) :
    (run env stdin pat (some (fs1 ++ f :: fs2)) u c m).exitCode = 0 ∧
    (run env stdin pat (some (fs1 ++ f :: fs2)) u c m).opened = fs1 ∧
    run env stdin pat (some (fs1 ++ f :: fs2)) u c m =
      run env stdin pat (some (fs1 ++ f :: fs2')) u c m := by
  have hrun : ∀ fs : List (List Char),
      run env stdin pat (some fs) u c m = processFiles env u c m r fs := by
    intro fs
    unfold run
    rw [hok]
  rw [hrun, hrun]
  have hstops := processFiles_stops env u c m r fs1 f fs2 fs2' h1 h2
  exact ⟨processFiles_exitCode env u c m r _, hstops.1, hstops.2⟩

/-- Witness for C7 (amended): Scenario D's missing file `"nofile.txt"` with
one further file listed after it. -/
theorem missing_file_stops_run_witness :
    compileRegex ['a'] = Except.ok (Regex.concat (Regex.char 'a') Regex.epsilon) ∧
    (run (fun _ => none) [] ['a']
      (some (([] : List (List Char)) ++ "nofile.txt".toList :: ["b.txt".toList]))
      false false false).opened = [] :=
  ⟨by rfl,
    (missing_file_stops_run (fun _ => none) [] ['a']
      (Regex.concat (Regex.char 'a') Regex.epsilon) [] "nofile.txt".toList
      ["b.txt".toList] [] false false false (by rfl)
      (by intro g hg; simp at hg) (by rfl)).2.1⟩

end RegexScanner

